import Mathlib

/-!
Verification of the hash-consed expression-graph core of `ao` (libfive),
embedded shallowly from `src/ao/src/tree/tree.cpp` and, for the parts of the
repository whose sources are declared but not present (the interning Cache,
the Opcode table and the Template bundle), modelled from the design document.

Pointer identity is modelled by indices into an append-only arena: a C++
`Tree_*` becomes the node's index in `Cache.nodes`, and an empty
`std::shared_ptr` (the absent-operand sentinel) becomes `none`.
-/

set_option maxRecDepth 4000

/-- Modelled from the spec: the Opcode table (`ao/tree/opcode.hpp` is not in
src/). Nullary: CONST and VAR; unary: SQUARE, SQRT, NEG, SIN, COS, TAN,
ASIN, ACOS, ATAN, EXP; binary: ADD, MUL, MIN, MAX, SUB, DIV, ATAN2, POW,
NTH_ROOT, MOD, NANFILL.  The numeric values of the opcode bytes are not
fixed by the available sources; `Opcode.toByte` below assigns an arbitrary
injective numbering. -/
inductive Opcode where
  | CONST | VAR
  | SQUARE | SQRT | NEG | SIN | COS | TAN | ASIN | ACOS | ATAN | EXP
  | ADD | MUL | MIN | MAX | SUB | DIV | ATAN2 | POW | NTH_ROOT | MOD | NANFILL
deriving DecidableEq, Repr

/-- Modelled from the spec: operand arity of each opcode (section 6 of the
design document; `Opcode::args` lives in the missing `opcode.hpp`). -/
def Opcode.args : Opcode → Nat
  | .CONST => 0 | .VAR => 0
  | .SQUARE => 1 | .SQRT => 1 | .NEG => 1 | .SIN => 1 | .COS => 1 | .TAN => 1
  | .ASIN => 1 | .ACOS => 1 | .ATAN => 1 | .EXP => 1
  | .ADD => 2 | .MUL => 2 | .MIN => 2 | .MAX => 2 | .SUB => 2 | .DIV => 2
  | .ATAN2 => 2 | .POW => 2 | .NTH_ROOT => 2 | .MOD => 2 | .NANFILL => 2

/-- Modelled from the spec: the single byte written for each opcode by the
serializer (`static_assert(Opcode::LAST_OP <= 255)` in tree.cpp).  The
numbering is arbitrary but injective; no claim fixes the concrete values. -/
def Opcode.toByte : Opcode → Nat
  | .CONST => 1 | .VAR => 2
  | .SQUARE => 3 | .SQRT => 4 | .NEG => 5 | .SIN => 6 | .COS => 7 | .TAN => 8
  | .ASIN => 9 | .ACOS => 10 | .ATAN => 11 | .EXP => 12
  | .ADD => 13 | .MUL => 14 | .MIN => 15 | .MAX => 16 | .SUB => 17 | .DIV => 18
  | .ATAN2 => 19 | .POW => 20 | .NTH_ROOT => 21 | .MOD => 22 | .NANFILL => 23

/-- Modelled from the spec: a floating-point constant value.  Floating-point
arithmetic is outside the embedding, so a value is carried as its 64-bit
pattern (`bits`, the interning key and the serialized payload: the spec keys
the constant map on the bit pattern and stores `value: float64`) together
with the two derived facts the construction-time checks consult:
`isIntegral` models `v == std::round(v)` and `isPos` models `v > 0`. -/
structure Val where
  bits : Nat
  isIntegral : Bool
  isPos : Bool
deriving DecidableEq, Repr

/-- 0.0: the placeholder payload of non-CONST nodes (the spec marks `value`
as meaningful only when op = CONST). -/
def Val.zero : Val := ⟨0, true, false⟩

/-- IEEE-754 double 1.0. -/
def val1 : Val := ⟨0x3FF0000000000000, true, true⟩
/-- IEEE-754 double 2.0. -/
def val2 : Val := ⟨0x4000000000000000, true, true⟩
/-- IEEE-754 double 2.5 (not integral). -/
def val2p5 : Val := ⟨0x4004000000000000, false, true⟩
/-- IEEE-754 double 3.0. -/
def val3 : Val := ⟨0x4008000000000000, true, true⟩
/-- IEEE-754 double 5.0. -/
def val5 : Val := ⟨0x4014000000000000, true, true⟩
/-- IEEE-754 double -2.0 (integral but not positive). -/
def valNeg2 : Val := ⟨0xC000000000000000, true, false⟩
/-- The quiet NaN pattern: not equal to its own rounding, not positive. -/
def valNaN : Val := ⟨0x7FF8000000000000, false, false⟩

/-- A DAG vertex (`Tree_` in the C++ source): opcode, constant payload,
optional owned children (arena indices), and rank. -/
structure Node where
  op : Opcode
  value : Val
  lhs : Option Nat
  rhs : Option Nat
  rank : Nat
deriving DecidableEq, Repr

/-- The interning cache (`Cache` in the missing `cache.hpp`/`cache.cpp`,
modelled from the spec): an append-only arena of nodes plus the two
structural-key maps.  `nodes` is never shrunk — a retired entry merely
disappears from the maps, mirroring the fact that freed C++ storage is gone
from the table whether or not the allocator reuses it. -/
structure Cache where
  nodes : List Node
  constMap : List (Nat × Nat)
  opMap : List ((Opcode × Option Nat × Option Nat) × Nat)
deriving DecidableEq, Repr

/-- First-match association-list lookup (models `std::map::find`). -/
def alookup {κ β : Type} [DecidableEq κ] (k : κ) : List (κ × β) → Option β
  | [] => none
  | (k', v) :: rest => if k = k' then some v else alookup k rest

/-- Removes the first entry with the given key (models `std::map::erase`). -/
def aerase {κ β : Type} [DecidableEq κ] (k : κ) : List (κ × β) → List (κ × β)
  | [] => []
  | (k', v) :: rest => if k = k' then rest else (k', v) :: aerase k rest

/-- Node lookup by arena index (dereferencing a `Tree_*`). -/
def Cache.get (c : Cache) (i : Nat) : Option Node := c.nodes[i]?

/-- Rank contribution of one operand: `h ? h->rank + 1 : 0`. -/
def childRank (c : Cache) (h : Option Nat) : Nat :=
  match h with
  | none => 0
  | some j => match c.get j with
    | some n => n.rank + 1
    | none => 0

/-- Modelled from the spec: `Cache::constant(v)` — return the canonical node
for `v`, keyed on the bit pattern of `v`; create with rank 0 and register if
absent. -/
def Cache.constant (v : Val) (c : Cache) : Nat × Cache :=
  match alookup v.bits c.constMap with
  | some i => (i, c)
  | none =>
    let i := c.nodes.length
    (i, { c with nodes := c.nodes ++ [⟨.CONST, v, none, none, 0⟩],
                 constMap := (v.bits, i) :: c.constMap })

/-- Modelled from the spec: `Cache::var()` — always construct a new,
uninterned, rank-0 VAR node. -/
def Cache.var (c : Cache) : Nat × Cache :=
  (c.nodes.length, { c with nodes := c.nodes ++ [⟨.VAR, Val.zero, none, none, 0⟩] })

/-- Modelled from the spec: `Cache::operation(op, lhs, rhs)` — lookup by
(op, lhs-identity, rhs-identity); if present return the canonical node, else
construct with `rank = 1 + max(rank of present operands, default 0)` (zero
when no operand is present, matching the data model's rank-0-if-arity-0),
register, return. -/
def Cache.operation (op : Opcode) (a b : Option Nat) (c : Cache) : Nat × Cache :=
  match alookup (op, a, b) c.opMap with
  | some i => (i, c)
  | none =>
    let i := c.nodes.length
    (i, { c with nodes := c.nodes ++ [⟨op, Val.zero, a, b, max (childRank c a) (childRank c b)⟩],
                 opMap := ((op, a, b), i) :: c.opMap })

/-- Modelled from the spec: `Cache::del(value)` — retire the constant-map
entry for this bit pattern, but only if it still maps to the node being
destroyed. -/
def Cache.delConst (v : Val) (i : Nat) (c : Cache) : Cache :=
  if alookup v.bits c.constMap = some i then
    { c with constMap := aerase v.bits c.constMap }
  else c

/-- Modelled from the spec: `Cache::del(op, lhs, rhs)` — retire the
operation-map entry for this key, but only if it still maps to the node
being destroyed. -/
def Cache.delOp (op : Opcode) (a b : Option Nat) (i : Nat) (c : Cache) : Cache :=
  if alookup (op, a, b) c.opMap = some i then
    { c with opMap := aerase (op, a, b) c.opMap }
  else c

/-- `Tree::Tree_::~Tree_()` from tree.cpp: a CONST notifies the cache with
its value, a VAR stays silent, every other opcode notifies with its
(op, lhs, rhs) key. -/
def Tree.teardown (c : Cache) (n : Node) (i : Nat) : Cache :=
  if n.op = .CONST then Cache.delConst n.value i c
  else if n.op ≠ .VAR then Cache.delOp n.op n.lhs n.rhs i c
  else c

/-- Teardown of the node stored at index `i` (refcount reached zero). -/
def Tree.teardownAt (c : Cache) (i : Nat) : Cache :=
  match c.get i with
  | some n => Tree.teardown c n i
  | none => c

/-- Modelled from the spec: the three canonical free variables X, Y, Z are
created once at process start, so they occupy arena slots 0, 1, 2 of the
initial cache. -/
def Cache.init : Cache := (((Cache.var ⟨[], [], []⟩).2.var).2.var).2

/-- Identity of the canonical X variable. -/
def Xid : Nat := 0
/-- Identity of the canonical Y variable. -/
def Yid : Nat := 1
/-- Identity of the canonical Z variable. -/
def Zid : Nat := 2

/-- The breadth-first discovery loop of `Tree::ordered()` (tree.cpp): pop
the front of `todo`; a handle not yet in `found` has its lhs then rhs
enqueued at the back, is marked found and recorded.  The C++ `found` set is
pre-seeded with the null pointer, so the empty handle is the explicitly
skipped case here; `found` accumulates discoveries front-first (reverse
discovery order).  Fuel makes the recursion structural; `bfsFuel` below is
always enough (each step strictly decreases `todo.length + 2·#undiscovered`). -/
def bfs (c : Cache) : Nat → List (Option Nat) → List Nat → List Nat
  | 0, _, found => found
  | _ + 1, [], found => found
  | fuel + 1, t :: rest, found =>
    match t with
    | none => bfs c fuel rest found
    | some i =>
      if i ∈ found then bfs c fuel rest found
      else match c.get i with
        | some n => bfs c fuel (rest ++ [n.lhs, n.rhs]) (i :: found)
        | none => bfs c fuel rest found

/-- Sufficient fuel for `bfs` started on one root with nothing found. -/
def bfsFuel (c : Cache) : Nat := 2 * c.nodes.length + 1

/-- The first-discovery order of `Tree::ordered()`'s traversal. -/
def Tree.disc (c : Cache) (root : Option Nat) : List Nat :=
  (bfs c (bfsFuel c) [root] []).reverse

/-- Rank of the node at index `i` (0 on a dangling index). -/
def rankOf (c : Cache) (i : Nat) : Nat :=
  match c.get i with
  | some n => n.rank
  | none => 0

/-- The largest rank occurring in a discovery list (bounds the rank keys of
the `std::map<unsigned, list>` buckets of `Tree::ordered()`). -/
def maxRankOf (c : Cache) (d : List Nat) : Nat :=
  d.foldr (fun i m => max (rankOf c i) m) 0

/-- Reading the rank buckets back in ascending key order: for each rank in
turn, the discovered nodes of that rank in discovery order. -/
def rankGroups (c : Cache) (d : List Nat) : List Nat :=
  (List.range (maxRankOf c d + 1)).flatMap
    (fun r => d.filter (fun i => decide (rankOf c i = r)))

/-- `Tree::ordered()` (tree.cpp): every reachable node, grouped by rank into
`std::map<unsigned, list>` buckets in discovery order, read back in
ascending rank order. -/
def Tree.ordered (c : Cache) (root : Option Nat) : List Nat :=
  rankGroups c (Tree.disc c root)

/-- `Tree::serializeString` (tree.cpp): a leading quote, each character
verbatim except `"` and `\` which gain a preceding backslash, a trailing
quote.  Bytes are modelled as naturals. -/
def serializeString (s : String) : List Nat :=
  34 :: (s.data.flatMap (fun ch =>
    if ch = '"' ∨ ch = '\\' then [92, ch.toNat] else [ch.toNat])) ++ [34]

/-- `serializeBytes`: the `w` little-endian bytes of a value (4 for node
ids, 8 for the float64 constant payload). -/
def bytesLE (w : Nat) (n : Nat) : List Nat :=
  match w with
  | 0 => []
  | w + 1 => (n % 256) :: bytesLE w (n / 256)

/-- Modelled from the spec: the Template bundle (`ao/tree/template.hpp` is
not in src/) — root handle, name and doc strings, and two identity-keyed
maps of variable display names and docs. -/
structure Template where
  tree : Option Nat
  name : String
  doc : String
  var_names : List (Nat × String)
  var_docs : List (Nat × String)

/-- One iteration of the serialization loop in `Tree::serialize(const
Template&)` (tree.cpp): push the opcode byte, assign the node the next
dense id, write the CONST payload or the VAR name/doc strings, then (via
the fall-through switch) for arity 2 the rhs child's id followed by the lhs
child's id, for arity 1 the lhs id.  `ids.at` on an unassigned key throws
in C++ and is `none` here. -/
def serStep (c : Cache) (t : Template) (st : List (Nat × Nat) × List Nat) (i : Nat) :
    Option (List (Nat × Nat) × List Nat) :=
  match c.get i with
  | none => none
  | some n =>
    let ids := (i, st.1.length) :: st.1
    let base := st.2 ++ [Opcode.toByte n.op] ++
      (if n.op = .CONST then bytesLE 8 n.value.bits
       else if n.op = .VAR then
         serializeString ((alookup i t.var_names).getD "") ++
         serializeString ((alookup i t.var_docs).getD "")
       else [])
    match Opcode.args n.op with
    | 2 =>
      match n.rhs, n.lhs with
      | some jr, some jl =>
        match alookup jr ids, alookup jl ids with
        | some r, some l => some (ids, base ++ bytesLE 4 r ++ bytesLE 4 l)
        | _, _ => none
      | _, _ => none
    | 1 =>
      match n.lhs with
      | some jl =>
        match alookup jl ids with
        | some l => some (ids, base ++ bytesLE 4 l)
        | none => none
      | none => none
    | _ => some (ids, base)

/-- `Tree::serialize(const Template&)` (tree.cpp): the tag byte 'T', the
quoted name and doc, then one record per node of `ordered()`. -/
def Tree.serializeT (c : Cache) (t : Template) : Option (List Nat) :=
  let hd := 84 :: (serializeString t.name ++ serializeString t.doc)
  match (Tree.ordered c t.tree).foldlM (serStep c t) ([], hd) with
  | some st => some st.2
  | none => none

/-- `Tree::serialize()` (tree.cpp): wrap the tree in a template with empty
name, doc and variable maps. -/
def Tree.serialize (c : Cache) (root : Option Nat) : Option (List Nat) :=
  Tree.serializeT c ⟨root, "", "", [], []⟩

/-- The substitution pass of `Tree::remap` (tree.cpp): walk `ordered()`;
for every node of arity ≥ 1 resolve lhs and rhs through the map (falling
back to the original child when unmapped — in particular an absent operand,
whose null key is never in the map) and register the cache's canonical
result under the original node's identity. -/
def remapStep (st : Cache × List (Nat × Option Nat)) (i : Nat) :
    Cache × List (Nat × Option Nat) :=
  match st.1.get i with
  | none => st
  | some n =>
    if 1 ≤ Opcode.args n.op then
      let lhsR := match n.lhs with
        | some j => (alookup j st.2).getD n.lhs
        | none => none
      let rhsR := match n.rhs with
        | some j => (alookup j st.2).getD n.rhs
        | none => none
      let r := Cache.operation n.op lhsR rhsR st.1
      (r.2, (i, some r.1) :: st.2)
    else st

def remapPass (ord : List Nat) (c : Cache) (m : List (Nat × Option Nat)) :
    Cache × List (Nat × Option Nat) :=
  ord.foldl remapStep (c, m)

/-- `Tree::remap(X_, Y_, Z_)` (tree.cpp): seed the map with the three
canonical variables' identities, run the substitution pass, and return the
root's image if the root was remapped, the tree itself otherwise. -/
def Tree.remap (c : Cache) (root : Option Nat) (hx hy hz : Option Nat) :
    Cache × Option Nat :=
  let m0 : List (Nat × Option Nat) := [(Xid, hx), (Yid, hy), (Zid, hz)]
  let st := remapPass (Tree.ordered c root) c m0
  match root with
  | some r =>
    match alookup r st.2 with
    | some h => (st.1, h)
    | none => (st.1, root)
  | none => (st.1, root)

/-- The operand-count sanity check of `Tree::Tree(Opcode, Tree, Tree)`
(tree.cpp): `(args == 0 && !a && !b) || (args == 1 && a && !b) ||
(args == 2 && a && b)`. -/
def arityMatch (op : Opcode) (a b : Option Nat) : Bool :=
  match Opcode.args op, a, b with
  | 0, none, none => true
  | 1, some _, none => true
  | 2, some _, some _ => true
  | _, _, _ => false

/-- The POW sanity check of tree.cpp: `b->op == CONST && b->value ==
round(b->value)`. -/
def intConstAt (c : Cache) (h : Option Nat) : Bool :=
  match h with
  | some j =>
    match c.get j with
    | some n => n.op = Opcode.CONST && n.value.isIntegral
    | none => false
  | none => false

/-- The NTH_ROOT sanity check of tree.cpp: additionally `b->value > 0`. -/
def posIntConstAt (c : Cache) (h : Option Nat) : Bool :=
  match h with
  | some j =>
    match c.get j with
    | some n => n.op = Opcode.CONST && n.value.isIntegral && n.value.isPos
    | none => false
  | none => false

/-- The three fatal precondition violations of the operation constructor. -/
inductive BuildErr where
  | arityMismatch
  | powNonIntegral
  | rootNonPositive
deriving DecidableEq, Repr

instance {ε α : Type} [DecidableEq ε] [DecidableEq α] : DecidableEq (Except ε α) :=
  fun x y =>
    match x, y with
    | .error e, .error f => decidable_of_iff (e = f) (by simp)
    | .ok a, .ok b => decidable_of_iff (a = b) (by simp)
    | .error _, .ok _ => isFalse (by simp)
    | .ok _, .error _ => isFalse (by simp)

/-- `Tree::Tree(Opcode, Tree, Tree)` (tree.cpp): the member initializer
interns the node through `Cache::instance()->operation` first; only then
does the constructor body run its assertions, whose failure (a fatal,
non-recoverable abort in the source) is modelled as an `Except.error`.  The
returned cache is in either case the post-initializer cache. -/
def Tree.mk (c : Cache) (op : Opcode) (a b : Option Nat) : Cache × Except BuildErr Nat :=
  let r := Cache.operation op a b c
  if ¬ arityMatch op a b then (r.2, .error .arityMismatch)
  else if op = .POW ∧ ¬ intConstAt r.2 b then (r.2, .error .powNonIntegral)
  else if op = .NTH_ROOT ∧ ¬ posIntConstAt r.2 b then (r.2, .error .rootNonPositive)
  else (r.2, .ok r.1)

/-- A handle is valid when empty or pointing into the arena. -/
def hvalid (c : Cache) (h : Option Nat) : Bool :=
  match h with
  | none => true
  | some j => j < c.nodes.length

/-- Children stored according to the opcode's arity (lhs for arity 1). -/
def arityShapeB (n : Node) : Bool :=
  match Opcode.args n.op, n.lhs, n.rhs with
  | 0, none, none => true
  | 1, some _, none => true
  | 2, some _, some _ => true
  | _, _, _ => false

/-- Children precede their parent in the arena (no back-edges). -/
def childLtB (i : Nat) (h : Option Nat) : Bool :=
  match h with
  | none => true
  | some j => j < i

/-- The node is registered in the structural map that owns its key (VAR
nodes are never interned). -/
def internedB (c : Cache) (i : Nat) (n : Node) : Bool :=
  if n.op = .CONST then decide (alookup n.value.bits c.constMap = some i)
  else if n.op = .VAR then true
  else decide (alookup (n.op, n.lhs, n.rhs) c.opMap = some i)

/-- All per-node invariants established by construction. -/
def nodeOkB (c : Cache) (i : Nat) (n : Node) : Bool :=
  arityShapeB n && childLtB i n.lhs && childLtB i n.rhs &&
  decide (n.rank = max (childRank c n.lhs) (childRank c n.rhs)) &&
  internedB c i n

/-- Decidable well-formedness of a cache. -/
def Cache.wfB (c : Cache) : Bool :=
  (List.range c.nodes.length).all (fun i =>
    match c.get i with
    | some n => nodeOkB c i n
    | none => true)

/-- `j` is a child (lhs or rhs) of the node stored at `i`. -/
def childOf (c : Cache) (i j : Nat) : Prop :=
  ∃ n, c.get i = some n ∧ (n.lhs = some j ∨ n.rhs = some j)

/-- Reachability in the DAG along parent→child edges. -/
def Reaches (c : Cache) : Nat → Nat → Prop :=
  Relation.ReflTransGen (childOf c)

/-- The caches constructible through the public surface: the initial cache
(with the canonical X, Y, Z variables) extended by `constant`, `var` and
precondition-respecting `operation` calls. -/
inductive Built : Cache → Prop where
  | init : Built Cache.init
  | const (c : Cache) (v : Val) : Built c → Built (Cache.constant v c).2
  | var (c : Cache) : Built c → Built (Cache.var c).2
  | op (c : Cache) (op0 : Opcode) (a b : Option Nat) : Built c →
      arityMatch op0 a b = true → hvalid c a = true → hvalid c b = true →
      Built (Cache.operation op0 a b c).2

/-! ### Helper lemmas on lookups and arena extension -/

lemma alookup_cons_self {κ β : Type} [DecidableEq κ] (k : κ) (v : β) (l : List (κ × β)) :
    alookup k ((k, v) :: l) = some v := by
  simp [alookup]

lemma Cache.get_operation_of_lt (c : Cache) (op : Opcode) (a b : Option Nat) (j : Nat)
    (hj : j < c.nodes.length) :
    (Cache.operation op a b c).2.get j = c.get j := by
  unfold Cache.operation
  cases h : alookup (op, a, b) c.opMap with
  | some i => rfl
  | none => simp [Cache.get, List.getElem?_append_left, hj]

lemma intConstAt_operation (c : Cache) (op : Opcode) (a b h : Option Nat)
    (hh : hvalid c h = true) :
    intConstAt (Cache.operation op a b c).2 h = intConstAt c h := by
  cases h with
  | none => rfl
  | some j =>
    simp only [hvalid, decide_eq_true_eq] at hh
    simp only [intConstAt, Cache.get_operation_of_lt c op a b j hh]

lemma posIntConstAt_operation (c : Cache) (op : Opcode) (a b h : Option Nat)
    (hh : hvalid c h = true) :
    posIntConstAt (Cache.operation op a b c).2 h = posIntConstAt c h := by
  cases h with
  | none => rfl
  | some j =>
    simp only [hvalid, decide_eq_true_eq] at hh
    simp only [posIntConstAt, Cache.get_operation_of_lt c op a b j hh]

/-! ### C1: hash-consed construction -/

/-- Claim C1: construction is hash-consed — a second call to
`operation(op, a, b)` returns the identical handle and leaves the cache
unchanged, a second call to `constant(v)` likewise for every value, and in
particular for the NaN bit pattern (the constant map is keyed on the bit
pattern, and `constant` is total, so NaN cannot crash it). -/
theorem claim_C1 (c : Cache) (op : Opcode) (a b : Option Nat) (v : Val) :
    Cache.operation op a b (Cache.operation op a b c).2
      = ((Cache.operation op a b c).1, (Cache.operation op a b c).2)
  ∧ Cache.constant v (Cache.constant v c).2
      = ((Cache.constant v c).1, (Cache.constant v c).2)
  ∧ Cache.constant valNaN (Cache.constant valNaN c).2
      = ((Cache.constant valNaN c).1, (Cache.constant valNaN c).2) := by
  refine ⟨?_, ?_, ?_⟩
  · unfold Cache.operation
    cases h : alookup (op, a, b) c.opMap with
    | some i => simp [h]
    | none => simp [h, alookup_cons_self]
  · unfold Cache.constant
    cases h : alookup v.bits c.constMap with
    | some i => simp [h]
    | none => simp [h, alookup_cons_self]
  · unfold Cache.constant
    cases h : alookup valNaN.bits c.constMap with
    | some i => simp [h]
    | none => simp [h, alookup_cons_self]

/-! ### C7: construction-time precondition checks -/

/-- Claim C7: the operation constructor's checks — operand count equal to
the opcode's arity, POW's second operand an integral CONST, NTH_ROOT's
second operand a strictly positive integral CONST — are fatal at
construction time (an assertion failure, modelled as `Except.error`, never
a recoverable value), and under the stated preconditions the error branch
is unreachable: construction succeeds exactly when the preconditions
hold. -/
theorem claim_C7 (c : Cache) (op : Opcode) (a b : Option Nat)
    (_ha : hvalid c a = true) (hb : hvalid c b = true) :
    (arityMatch op a b = true
      ∧ (op = .POW → intConstAt c b = true)
      ∧ (op = .NTH_ROOT → posIntConstAt c b = true))
    ↔ (∃ i, (Tree.mk c op a b).2 = .ok i) := by
  have h1 := intConstAt_operation c op a b b hb
  have h2 := posIntConstAt_operation c op a b b hb
  simp only [Tree.mk, h1, h2]
  split_ifs with g1 g2 g3 <;> simp_all

/-- Witness for C7: `add(X, constant(2))` satisfies the preconditions, so a
concrete construction succeeds. -/
def c7cache : Cache := (Cache.constant val2 Cache.init).2

theorem claim_C7_witness :
    hvalid c7cache (some Xid) = true ∧ hvalid c7cache (some 3) = true
    ∧ (∃ i, (Tree.mk c7cache .ADD (some Xid) (some 3)).2 = .ok i) :=
  ⟨by decide, by decide,
    (claim_C7 c7cache .ADD (some Xid) (some 3) (by decide) (by decide)).mp
      ⟨by decide, by simp, by simp⟩⟩

/-! ### C10: the node is interned before the fatal check fires -/

/-- The cache holding `constant(2.5)` (arena index 3) next to the canonical
variables. -/
def c10cache : Cache := (Cache.constant val2p5 Cache.init).2

/-- Claim C10: the member initializer runs `Cache::instance()->operation`
before any assertion of the constructor body is evaluated, so the resulting
cache is always the post-interning cache — and on a violating input such as
`pow(X, constant(2.5))` the offending POW node has already been constructed
and interned under its key when the fatal check fires; the check is not
atomic with respect to cache state. -/
theorem claim_C10 :
    (∀ (c : Cache) (op : Opcode) (a b : Option Nat),
      (Tree.mk c op a b).1 = (Cache.operation op a b c).2)
  ∧ (Tree.mk c10cache .POW (some Xid) (some 3)).2 = .error .powNonIntegral
  ∧ alookup (Opcode.POW, some Xid, some 3) (Tree.mk c10cache .POW (some Xid) (some 3)).1.opMap
      = some 4
  ∧ (Tree.mk c10cache .POW (some Xid) (some 3)).1.get 4
      = some ⟨.POW, Val.zero, some Xid, some 3, 1⟩ := by
  refine ⟨?_, by decide, by decide, by decide⟩
  intro c op a b
  simp only [Tree.mk]
  split_ifs <;> rfl

/-! ### C8: serialization shape of a one-constant template -/

/-- The cache holding `constant(3.0)` (arena index 3). -/
def c8cache : Cache := (Cache.constant val3 Cache.init).2

/-- Claim C8: serializing a template named "t" with empty doc wrapping
`constant(3.0)` yields exactly the tag byte, the quoted string "t", the
quoted empty string, then a single record: the CONST opcode byte followed
by the 8 raw little-endian bytes of the float64 value 3.0. -/
theorem claim_C8 :
    Tree.serializeT c8cache ⟨some 3, "t", "", [], []⟩
      = some ([84] ++ [34, 116, 34] ++ [34, 34]
          ++ [Opcode.toByte .CONST] ++ [0, 0, 0, 0, 0, 0, 8, 64]) := by
  decide

/-! ### C5: remap substitution -/

/-- `constant(1)` over the initial cache: arena index 3. -/
def c5k1 : Nat × Cache := Cache.constant val1 Cache.init
/-- `add(X, constant(1))`: arena index 4. -/
def c5tree : Nat × Cache := Cache.operation .ADD (some Xid) (some c5k1.1) c5k1.2
/-- `constant(5)`, built by the caller before invoking remap: index 5. -/
def c5k5 : Nat × Cache := Cache.constant val5 c5tree.2
/-- `tree.remap(constant(5), Y, Z)`. -/
def c5res : Cache × Option Nat :=
  Tree.remap c5k5.2 (some c5tree.1) (some c5k5.1) (some Yid) (some Zid)
/-- The reference build of `add(constant(5), constant(1))`. -/
def c5refK5 : Nat × Cache := Cache.constant val5 Cache.init
/-- Reference `constant(1)`. -/
def c5refK1 : Nat × Cache := Cache.constant val1 c5refK5.2
/-- Reference `add(constant(5), constant(1))`. -/
def c5ref : Nat × Cache := Cache.operation .ADD (some c5refK5.1) (some c5refK1.1) c5refK1.2

/-- Claim C5: for `tree = add(X, constant(1))`, `tree.remap(constant(5), Y,
Z)` produces a tree whose serialization is byte-for-byte the serialization
of `add(constant(5), constant(1))`; the pass walked the source in ranked
topological order, registered — under the original ADD node's identity 4 —
the canonical node the cache returned for (ADD, constant-5, constant-1),
fell back to the original child `constant(1)` (which stays shared, id 3,
unregistered since it has arity 0), and the substituted root is the fresh
canonical node 6. -/
theorem claim_C5 :
    Tree.serialize c5res.1 c5res.2 = Tree.serialize c5ref.2 (some c5ref.1)
  ∧ (Tree.serialize c5res.1 c5res.2).isSome = true
  ∧ c5res.2 = some 6
  ∧ alookup c5tree.1
      (remapPass (Tree.ordered c5k5.2 (some c5tree.1)) c5k5.2
        [(Xid, some c5k5.1), (Yid, some Yid), (Zid, some Zid)]).2 = some (some 6)
  ∧ alookup c5k1.1
      (remapPass (Tree.ordered c5k5.2 (some c5tree.1)) c5k5.2
        [(Xid, some c5k5.1), (Yid, some Yid), (Zid, some Zid)]).2 = none
  ∧ c5res.1.get 6 = some ⟨.ADD, Val.zero, some c5k5.1, some c5k1.1, 1⟩ := by
  decide

/-! ### C9: eviction correctness -/

/-- `constant(1)` at index 3. -/
def c9k1 : Nat × Cache := Cache.constant val1 Cache.init
/-- `constant(2)` at index 4. -/
def c9k2 : Nat × Cache := Cache.constant val2 c9k1.2
/-- `add(constant(1), constant(2))` at index 5. -/
def c9add : Nat × Cache := Cache.operation .ADD (some c9k1.1) (some c9k2.1) c9k2.2
/-- The cache after the last handle to the ADD node is dropped: the root's
teardown retires its operation key, then the released children cascade. -/
def c9dropped : Cache :=
  Tree.teardownAt (Tree.teardownAt (Tree.teardownAt c9add.2 5) 3) 4
/-- Rebuilding the identical expression after the drop. -/
def c9r1 : Nat × Cache := Cache.constant val1 c9dropped
/-- Rebuilt `constant(2)`. -/
def c9r2 : Nat × Cache := Cache.constant val2 c9r1.2
/-- Rebuilt `add(constant(1), constant(2))`. -/
def c9radd : Nat × Cache := Cache.operation .ADD (some c9r1.1) (some c9r2.1) c9r2.2

/-- Claim C9: node teardown retires a cache entry only when the entry still
maps to the node being destroyed (`delConst`/`delOp` leave the cache
untouched otherwise), VAR nodes never notify the cache at all, and after
building `add(constant(1), constant(2))`, dropping every reference and
rebuilding the identical expression, the rebuild succeeds and serializes
byte-for-byte identically — no crash, no stale aliasing. -/
theorem claim_C9 :
    (∀ (c : Cache) (n : Node) (i : Nat), n.op = .VAR → Tree.teardown c n i = c)
  ∧ (∀ (c : Cache) (v : Val) (i : Nat),
      alookup v.bits c.constMap ≠ some i → Cache.delConst v i c = c)
  ∧ (∀ (c : Cache) (op : Opcode) (a b : Option Nat) (i : Nat),
      alookup (op, a, b) c.opMap ≠ some i → Cache.delOp op a b i c = c)
  ∧ (Tree.serialize c9radd.2 (some c9radd.1)).isSome = true
  ∧ Tree.serialize c9radd.2 (some c9radd.1) = Tree.serialize c9add.2 (some c9add.1) := by
  refine ⟨?_, ?_, ?_, by decide, by decide⟩
  · intro c n i h
    simp [Tree.teardown, h]
  · intro c v i h
    simp [Cache.delConst, h]
  · intro c op a b i h
    simp [Cache.delOp, h]

/-- Witness for C9: a VAR teardown over a concrete cache is a no-op, and
the guarded retirements refuse a stale key on a concrete cache. -/
theorem claim_C9_witness :
    Tree.teardown c9add.2 ⟨.VAR, Val.zero, none, none, 0⟩ 0 = c9add.2
  ∧ Cache.delConst val3 7 c9add.2 = c9add.2
  ∧ Cache.delOp .MUL (some 3) (some 4) 9 c9add.2 = c9add.2 :=
  ⟨claim_C9.1 c9add.2 ⟨.VAR, Val.zero, none, none, 0⟩ 0 rfl,
   claim_C9.2.1 c9add.2 val3 7 (by decide),
   claim_C9.2.2.1 c9add.2 .MUL (some 3) (some 4) 9 (by decide)⟩

/-! ### C2: rank invariants of every constructible cache -/

/-- Rank of a present child; 0 for an absent operand. -/
def presentRank (c : Cache) (h : Option Nat) : Nat :=
  match h with
  | some j => rankOf c j
  | none => 0

/-- The structural invariant every construction step maintains: stored
children according to arity, children strictly below their parent in the
arena, and the rank equation. -/
def CInv (c : Cache) : Prop :=
  ∀ i n, c.get i = some n →
    arityShapeB n = true ∧ childLtB i n.lhs = true ∧ childLtB i n.rhs = true ∧
    n.rank = max (childRank c n.lhs) (childRank c n.rhs)

/-- Decidable version of `Inv` for concrete caches. -/
def Cache.invB (c : Cache) : Bool :=
  (List.range c.nodes.length).all (fun i =>
    match c.get i with
    | some n => arityShapeB n && childLtB i n.lhs && childLtB i n.rhs &&
        decide (n.rank = max (childRank c n.lhs) (childRank c n.rhs))
    | none => true)

lemma index_lt_of_get {c : Cache} {i : Nat} {n : Node} (h : c.get i = some n) :
    i < c.nodes.length := by
  by_contra hge
  rw [Cache.get, List.getElem?_eq_none (Nat.le_of_not_lt hge)] at h
  exact Option.noConfusion h

lemma get_of_lt {c : Cache} {j : Nat} (hj : j < c.nodes.length) :
    ∃ m, c.get j = some m :=
  ⟨c.nodes[j], by simp [Cache.get, List.getElem?_eq_getElem hj]⟩

lemma CInv_of_invB (c : Cache) (h : c.invB = true) : CInv c := by
  intro i n hget
  have hi : i < c.nodes.length := index_lt_of_get hget
  have hrun := (List.all_eq_true.mp h) i (List.mem_range.mpr hi)
  rw [hget] at hrun
  simp only [Bool.and_eq_true, decide_eq_true_eq] at hrun
  exact ⟨hrun.1.1.1, hrun.1.1.2, hrun.1.2, hrun.2⟩

lemma get_append_cases (l : List Node) (x : Node) (i : Nat) (n : Node)
    (h : (l ++ [x])[i]? = some n) :
    (i < l.length ∧ l[i]? = some n) ∨ (i = l.length ∧ n = x) := by
  rcases Nat.lt_trichotomy i l.length with hlt | heq | hgt
  · exact Or.inl ⟨hlt, by rwa [List.getElem?_append_left hlt] at h⟩
  · subst heq
    rw [List.getElem?_concat_length] at h
    exact Or.inr ⟨rfl, (Option.some.injEq _ _ ▸ h).symm⟩
  · exfalso
    have hlen : (l ++ [x]).length ≤ i := by
      rw [List.length_append]
      simpa using hgt
    rw [List.getElem?_eq_none hlen] at h
    exact Option.noConfusion h

lemma hvalid_of_childLt {c : Cache} {i : Nat} {h : Option Nat}
    (hlt : childLtB i h = true) (hi : i ≤ c.nodes.length) : hvalid c h = true := by
  cases h with
  | none => rfl
  | some j =>
    simp only [childLtB, decide_eq_true_eq] at hlt
    simp only [hvalid, decide_eq_true_eq]
    omega

lemma childRank_append (c : Cache) (x : Node)
    (cm : List (Nat × Nat)) (om : List ((Opcode × Option Nat × Option Nat) × Nat))
    (h : Option Nat) (hv : hvalid c h = true) :
    childRank ⟨c.nodes ++ [x], cm, om⟩ h = childRank c h := by
  cases h with
  | none => rfl
  | some j =>
    simp only [hvalid, decide_eq_true_eq] at hv
    simp only [childRank, Cache.get, List.getElem?_append_left hv]

lemma CInv_append (c : Cache) (x : Node)
    (cm : List (Nat × Nat)) (om : List ((Opcode × Option Nat × Option Nat) × Nat))
    (hc : CInv c)
    (h1 : arityShapeB x = true)
    (h2 : childLtB c.nodes.length x.lhs = true)
    (h3 : childLtB c.nodes.length x.rhs = true)
    (h4 : x.rank = max (childRank c x.lhs) (childRank c x.rhs)) :
    CInv ⟨c.nodes ++ [x], cm, om⟩ := by
  intro i n hget
  rcases get_append_cases c.nodes x i n hget with ⟨hi, hold⟩ | ⟨hi, hx⟩
  · obtain ⟨s1, s2, s3, s4⟩ := hc i n hold
    have e1 := childRank_append c x cm om n.lhs (hvalid_of_childLt s2 (Nat.le_of_lt hi))
    have e2 := childRank_append c x cm om n.rhs (hvalid_of_childLt s3 (Nat.le_of_lt hi))
    exact ⟨s1, s2, s3, by rw [e1, e2]; exact s4⟩
  · subst hi
    have e1 := childRank_append c x cm om x.lhs (hvalid_of_childLt h2 (Nat.le_refl _))
    have e2 := childRank_append c x cm om x.rhs (hvalid_of_childLt h3 (Nat.le_refl _))
    rw [hx]
    exact ⟨h1, h2, h3, by rw [e1, e2]; exact h4⟩

lemma childLt_of_hvalid {c : Cache} {h : Option Nat}
    (hv : hvalid c h = true) : childLtB c.nodes.length h = true := by
  cases h with
  | none => rfl
  | some j =>
    simp only [hvalid, decide_eq_true_eq] at hv
    simp only [childLtB, decide_eq_true_eq]
    exact hv

lemma Built.inv {c : Cache} (hb : Built c) : CInv c := by
  induction hb with
  | init => exact CInv_of_invB _ (by decide)
  | const c v _ ih =>
    unfold Cache.constant
    cases h : alookup v.bits c.constMap with
    | some i => exact ih
    | none => exact CInv_append c _ _ _ ih rfl rfl rfl rfl
  | var c _ ih =>
    unfold Cache.var
    exact CInv_append c _ _ _ ih rfl rfl rfl rfl
  | op c op0 a b _ hm hva hvb ih =>
    unfold Cache.operation
    cases h : alookup (op0, a, b) c.opMap with
    | some i => exact ih
    | none =>
      refine CInv_append c _ _ _ ih ?_ ?_ ?_ rfl
      · unfold arityShapeB
        unfold arityMatch at hm
        exact hm
      · exact childLt_of_hvalid hva
      · exact childLt_of_hvalid hvb

lemma childRank_eq_presentRank_succ (c : Cache) (j : Nat) (hj : j < c.nodes.length) :
    childRank c (some j) = presentRank c (some j) + 1 := by
  obtain ⟨m, hm⟩ := get_of_lt hj
  simp [childRank, presentRank, rankOf, hm]

/-- Claim C2: in every cache constructible through the public surface, a
node whose opcode has arity 0 has rank 0, a node of arity ≥ 1 has rank
1 + max of the ranks of its present children, and along every parent→child
edge the child's rank — and its arena index, which therefore yields a
topological order — is strictly below the parent's, so the graph is
acyclic. -/
theorem claim_C2 (c : Cache) (hb : Built c) :
    ∀ i n, c.get i = some n →
      (Opcode.args n.op = 0 → n.rank = 0)
      ∧ (1 ≤ Opcode.args n.op →
          n.rank = 1 + max (presentRank c n.lhs) (presentRank c n.rhs))
      ∧ (∀ j, n.lhs = some j ∨ n.rhs = some j →
          j < i ∧ ∀ m, c.get j = some m → m.rank < n.rank) := by
  have hc := hb.inv
  intro i n hget
  have hi : i < c.nodes.length := index_lt_of_get hget
  obtain ⟨s1, s2, s3, s4⟩ := hc i n hget
  refine ⟨?_, ?_, ?_⟩
  · intro h0
    cases hl : n.lhs with
    | some jl => simp [arityShapeB, h0, hl] at s1
    | none =>
      cases hr : n.rhs with
      | some jr => simp [arityShapeB, h0, hl, hr] at s1
      | none => rw [s4, hl, hr]; rfl
  · intro hge1
    cases hl : n.lhs with
    | none =>
      exfalso
      cases hr : n.rhs with
      | none =>
        unfold arityShapeB at s1
        rw [hl, hr] at s1
        rcases hargs : Opcode.args n.op with _ | k
        · omega
        · rw [hargs] at s1; cases k <;> simp at s1
      | some jr =>
        unfold arityShapeB at s1
        rw [hl, hr] at s1
        rcases hargs : Opcode.args n.op with _ | _ | k <;> rw [hargs] at s1 <;> simp at s1
    | some jl =>
      have hjl : jl < c.nodes.length := by
        rw [hl] at s2
        simp only [childLtB, decide_eq_true_eq] at s2
        omega
      have el := childRank_eq_presentRank_succ c jl hjl
      cases hr : n.rhs with
      | none =>
        rw [s4, hl, hr, el]
        simp only [presentRank, childRank]
        rw [Nat.max_zero, Nat.max_zero]
        omega
      | some jr =>
        have hjr : jr < c.nodes.length := by
          rw [hr] at s3
          simp only [childLtB, decide_eq_true_eq] at s3
          omega
        have er := childRank_eq_presentRank_succ c jr hjr
        rw [s4, hl, hr, el, er]
        rw [Nat.succ_max_succ]
        omega
  · intro j hj
    have hjlt : j < i := by
      rcases hj with hj | hj
      · rw [hj] at s2; simpa [childLtB] using s2
      · rw [hj] at s3; simpa [childLtB] using s3
    refine ⟨hjlt, ?_⟩
    intro m hm
    have hcr : childRank c (some j) = m.rank + 1 := by simp [childRank, hm]
    rcases hj with hj | hj
    · have : childRank c n.lhs ≤ n.rank := by rw [s4]; exact Nat.le_max_left _ _
      rw [hj, hcr] at this
      omega
    · have : childRank c n.rhs ≤ n.rank := by rw [s4]; exact Nat.le_max_right _ _
      rw [hj, hcr] at this
      omega

/-- The cache of `add(X, constant(1))`, with its construction certificate. -/
def c2cache : Cache :=
  (Cache.operation .ADD (some Xid) (some 3) (Cache.constant val1 Cache.init).2).2

lemma c2built : Built c2cache :=
  Built.op _ .ADD _ _ (Built.const _ val1 Built.init) (by decide) (by decide) (by decide)

/-- Witness for C2: the ADD node of `add(X, constant(1))` (arena index 4,
rank 1) satisfies the arity ≥ 1 rank equation. -/
theorem claim_C2_witness :
    (1 : Nat) = 1 + max (presentRank c2cache (some Xid)) (presentRank c2cache (some 3)) :=
  (claim_C2 c2cache c2built 4 ⟨.ADD, Val.zero, some Xid, some 3, 1⟩ (by decide)).2.1
    (by decide)

/-! ### The breadth-first enumerator: supporting lemmas -/

lemma bfs_zero (c : Cache) (todo : List (Option Nat)) (found : List Nat) :
    bfs c 0 todo found = found := rfl

lemma bfs_nil (c : Cache) (f : Nat) (found : List Nat) :
    bfs c (f + 1) [] found = found := rfl

lemma bfs_none (c : Cache) (f : Nat) (rest : List (Option Nat)) (found : List Nat) :
    bfs c (f + 1) (none :: rest) found = bfs c f rest found := rfl

lemma bfs_skip (c : Cache) (f : Nat) (i : Nat) (rest : List (Option Nat))
    (found : List Nat) (h : i ∈ found) :
    bfs c (f + 1) (some i :: rest) found = bfs c f rest found := by
  simp [bfs, h]

lemma bfs_dangling (c : Cache) (f : Nat) (i : Nat) (rest : List (Option Nat))
    (found : List Nat) (h : i ∉ found) (hg : c.get i = none) :
    bfs c (f + 1) (some i :: rest) found = bfs c f rest found := by
  simp [bfs, h, hg]

lemma bfs_discover (c : Cache) (f : Nat) (i : Nat) (n : Node)
    (rest : List (Option Nat)) (found : List Nat)
    (h : i ∉ found) (hg : c.get i = some n) :
    bfs c (f + 1) (some i :: rest) found
      = bfs c f (rest ++ [n.lhs, n.rhs]) (i :: found) := by
  simp [bfs, h, hg]

lemma bfs_found_subset (c : Cache) :
    ∀ (fuel : Nat) (todo : List (Option Nat)) (found : List Nat),
      ∀ i ∈ found, i ∈ bfs c fuel todo found := by
  intro fuel
  induction fuel with
  | zero => intro todo found i hi; simpa [bfs_zero] using hi
  | succ f ih =>
    intro todo found i hi
    cases todo with
    | nil => simpa [bfs_nil] using hi
    | cons t rest =>
      cases t with
      | none => rw [bfs_none]; exact ih rest found i hi
      | some k =>
        by_cases hk : k ∈ found
        · rw [bfs_skip c f k rest found hk]; exact ih rest found i hi
        · cases hg : c.get k with
          | none => rw [bfs_dangling c f k rest found hk hg]; exact ih rest found i hi
          | some n =>
            rw [bfs_discover c f k n rest found hk hg]
            exact ih _ _ i (List.mem_cons_of_mem k hi)

lemma bfs_sound (c : Cache) (P : Nat → Prop)
    (hP : ∀ i j, P i → childOf c i j → P j) :
    ∀ (fuel : Nat) (todo : List (Option Nat)) (found : List Nat),
      (∀ h ∈ todo, ∀ i, h = some i → P i) →
      (∀ i ∈ found, P i) →
      ∀ i ∈ bfs c fuel todo found, P i := by
  intro fuel
  induction fuel with
  | zero => intro todo found _ hf i hi; exact hf i (by simpa [bfs_zero] using hi)
  | succ f ih =>
    intro todo found ht hf i hi
    cases todo with
    | nil => exact hf i (by simpa [bfs_nil] using hi)
    | cons t rest =>
      cases t with
      | none =>
        rw [bfs_none] at hi
        exact ih rest found (fun h hh => ht h (List.mem_cons_of_mem _ hh)) hf i hi
      | some k =>
        have hPk : P k := ht (some k) (List.mem_cons_self _ _) k rfl
        by_cases hk : k ∈ found
        · rw [bfs_skip c f k rest found hk] at hi
          exact ih rest found (fun h hh => ht h (List.mem_cons_of_mem _ hh)) hf i hi
        · cases hg : c.get k with
          | none =>
            rw [bfs_dangling c f k rest found hk hg] at hi
            exact ih rest found (fun h hh => ht h (List.mem_cons_of_mem _ hh)) hf i hi
          | some n =>
            rw [bfs_discover c f k n rest found hk hg] at hi
            refine ih _ _ ?_ ?_ i hi
            · intro h hh j hj
              rcases List.mem_append.mp hh with hh | hh
              · exact ht h (List.mem_cons_of_mem _ hh) j hj
              · subst hj
                have hmem : some j = n.lhs ∨ some j = n.rhs := by simpa using hh
                have : n.lhs = some j ∨ n.rhs = some j := by
                  rcases hmem with h1 | h1
                  · exact Or.inl h1.symm
                  · exact Or.inr h1.symm
                exact hP k j hPk ⟨n, hg, this⟩
            · intro i' hi'
              rcases List.mem_cons.mp hi' with hi' | hi'
              · subst hi'; exact hPk
              · exact hf i' hi'

lemma bfs_nodup (c : Cache) :
    ∀ (fuel : Nat) (todo : List (Option Nat)) (found : List Nat),
      found.Nodup → (bfs c fuel todo found).Nodup := by
  intro fuel
  induction fuel with
  | zero => intro todo found h; simpa [bfs_zero] using h
  | succ f ih =>
    intro todo found h
    cases todo with
    | nil => simpa [bfs_nil] using h
    | cons t rest =>
      cases t with
      | none => rw [bfs_none]; exact ih rest found h
      | some k =>
        by_cases hk : k ∈ found
        · rw [bfs_skip c f k rest found hk]; exact ih rest found h
        · cases hg : c.get k with
          | none => rw [bfs_dangling c f k rest found hk hg]; exact ih rest found h
          | some n =>
            rw [bfs_discover c f k n rest found hk hg]
            exact ih _ _ (List.nodup_cons.mpr ⟨hk, h⟩)

/-- Number of arena indices not yet discovered. -/
def unfoundCount (c : Cache) (found : List Nat) : Nat :=
  ((List.range c.nodes.length).filter (fun j => decide (j ∉ found))).length

lemma unfoundCount_cons (c : Cache) (i : Nat) (found : List Nat)
    (hi : i < c.nodes.length) (hnf : i ∉ found) :
    unfoundCount c (i :: found) + 1 = unfoundCount c found := by
  unfold unfoundCount
  have hmem : i ∈ (List.range c.nodes.length).filter (fun j => decide (j ∉ found)) :=
    List.mem_filter.mpr ⟨List.mem_range.mpr hi, by simpa using hnf⟩
  have hnd : ((List.range c.nodes.length).filter (fun j => decide (j ∉ found))).Nodup :=
    (List.nodup_range _).filter _
  have e1 : (List.range c.nodes.length).filter (fun j => decide (j ∉ i :: found))
      = ((List.range c.nodes.length).filter (fun j => decide (j ∉ found))).erase i := by
    rw [hnd.erase_eq_filter i, List.filter_filter]
    apply List.filter_congr
    intro a _
    by_cases h1 : a = i <;> by_cases h2 : a ∈ found <;> simp [h1, h2]
  rw [e1, List.length_erase_of_mem hmem]
  have hpos := List.length_pos_of_mem hmem
  omega

lemma bfs_complete (c : Cache)
    (hcv : ∀ i j, childOf c i j → j < c.nodes.length) :
    ∀ (fuel : Nat) (todo : List (Option Nat)) (found : List Nat),
      todo.length + 2 * unfoundCount c found ≤ fuel →
      (∀ i ∈ found, ∀ j, childOf c i j → (some j) ∈ todo ∨ j ∈ found) →
      (∀ h ∈ todo, ∀ i, h = some i → i < c.nodes.length → i ∈ bfs c fuel todo found)
      ∧ (∀ i ∈ bfs c fuel todo found, ∀ j, childOf c i j → j ∈ bfs c fuel todo found) := by
  intro fuel
  induction fuel with
  | zero =>
    intro todo found hfuel hcl
    have htodo : todo = [] := by
      cases todo with
      | nil => rfl
      | cons t r => simp [List.length_cons] at hfuel
    subst htodo
    refine ⟨fun h hh => absurd hh (List.not_mem_nil _), ?_⟩
    intro i hi j hcj
    rw [bfs_zero] at hi ⊢
    rcases hcl i hi j hcj with h | h
    · exact absurd h (List.not_mem_nil _)
    · exact h
  | succ f ih =>
    intro todo found hfuel hcl
    cases todo with
    | nil =>
      refine ⟨fun h hh => absurd hh (List.not_mem_nil _), ?_⟩
      intro i hi j hcj
      rw [bfs_nil] at hi ⊢
      rcases hcl i hi j hcj with h | h
      · exact absurd h (List.not_mem_nil _)
      · exact h
    | cons t rest =>
      cases t with
      | none =>
        rw [bfs_none]
        have hfuel' : rest.length + 2 * unfoundCount c found ≤ f := by
          simp only [List.length_cons] at hfuel
          omega
        have hcl' : ∀ i ∈ found, ∀ j, childOf c i j → (some j) ∈ rest ∨ j ∈ found := by
          intro i hi j hcj
          rcases hcl i hi j hcj with h | h
          · rcases List.mem_cons.mp h with h0 | h0
            · exact absurd h0 (by simp)
            · exact Or.inl h0
          · exact Or.inr h
        obtain ⟨k1, k2⟩ := ih rest found hfuel' hcl'
        refine ⟨?_, k2⟩
        intro h hh i hi hlen
        rcases List.mem_cons.mp hh with h0 | h0
        · rw [h0] at hi; exact absurd hi (by simp)
        · exact k1 h h0 i hi hlen
      | some k =>
        by_cases hk : k ∈ found
        · rw [bfs_skip c f k rest found hk]
          have hfuel' : rest.length + 2 * unfoundCount c found ≤ f := by
            simp only [List.length_cons] at hfuel
            omega
          have hcl' : ∀ i ∈ found, ∀ j, childOf c i j → (some j) ∈ rest ∨ j ∈ found := by
            intro i hi j hcj
            rcases hcl i hi j hcj with h | h
            · rcases List.mem_cons.mp h with h0 | h0
              · have : j = k := by injection h0
                exact Or.inr (this ▸ hk)
              · exact Or.inl h0
            · exact Or.inr h
          obtain ⟨k1, k2⟩ := ih rest found hfuel' hcl'
          refine ⟨?_, k2⟩
          intro h hh i hi hlen
          rcases List.mem_cons.mp hh with h0 | h0
          · rw [h0] at hi
            have : k = i := by injection hi
            subst this
            exact bfs_found_subset c f rest found k hk
          · exact k1 h h0 i hi hlen
        · cases hg : c.get k with
          | none =>
            have hklen : c.nodes.length ≤ k := by
              by_contra hlt
              obtain ⟨m, hm⟩ := get_of_lt (Nat.lt_of_not_le hlt)
              rw [hm] at hg
              exact Option.noConfusion hg
            rw [bfs_dangling c f k rest found hk hg]
            have hfuel' : rest.length + 2 * unfoundCount c found ≤ f := by
              simp only [List.length_cons] at hfuel
              omega
            have hcl' : ∀ i ∈ found, ∀ j, childOf c i j → (some j) ∈ rest ∨ j ∈ found := by
              intro i hi j hcj
              rcases hcl i hi j hcj with h | h
              · rcases List.mem_cons.mp h with h0 | h0
                · have hjk : j = k := by injection h0
                  have := hcv i j hcj
                  omega
                · exact Or.inl h0
              · exact Or.inr h
            obtain ⟨k1, k2⟩ := ih rest found hfuel' hcl'
            refine ⟨?_, k2⟩
            intro h hh i hi hlen
            rcases List.mem_cons.mp hh with h0 | h0
            · rw [h0] at hi
              have : k = i := by injection hi
              omega
            · exact k1 h h0 i hi hlen
          | some n =>
            rw [bfs_discover c f k n rest found hk hg]
            have hklen : k < c.nodes.length := index_lt_of_get hg
            have hcount := unfoundCount_cons c k found hklen hk
            have hfuel' : (rest ++ [n.lhs, n.rhs]).length
                + 2 * unfoundCount c (k :: found) ≤ f := by
              have e2 : (rest ++ [n.lhs, n.rhs]).length = rest.length + 2 := by simp
              have e3 : (some k :: rest).length = rest.length + 1 := by simp
              rw [e3] at hfuel
              rw [e2]
              omega
            have hcl' : ∀ i ∈ k :: found, ∀ j, childOf c i j →
                (some j) ∈ rest ++ [n.lhs, n.rhs] ∨ j ∈ k :: found := by
              intro i hi j hcj
              rcases List.mem_cons.mp hi with h0 | h0
              · subst h0
                obtain ⟨n', hn', hchild⟩ := hcj
                rw [hg] at hn'
                have hnn : n' = n := (Option.some.inj hn').symm
                subst hnn
                left
                apply List.mem_append.mpr
                right
                rcases hchild with h1 | h1
                · rw [← h1]; exact List.mem_cons_self _ _
                · rw [← h1]; exact List.mem_cons_of_mem _ (List.mem_cons_self _ _)
              · rcases hcl i h0 j hcj with h1 | h1
                · rcases List.mem_cons.mp h1 with h2 | h2
                  · have : j = k := by injection h2
                    exact Or.inr (this ▸ List.mem_cons_self _ _)
                  · exact Or.inl (List.mem_append.mpr (Or.inl h2))
                · exact Or.inr (List.mem_cons_of_mem _ h1)
            obtain ⟨k1, k2⟩ := ih _ _ hfuel' hcl'
            refine ⟨?_, k2⟩
            intro h hh i hi hlen
            rcases List.mem_cons.mp hh with h0 | h0
            · rw [h0] at hi
              have : k = i := by injection hi
              subst this
              exact bfs_found_subset c f _ _ k (List.mem_cons_self _ _)
            · exact k1 h (List.mem_append.mpr (Or.inl h0)) i hi hlen

lemma wf_spec {c : Cache} (h : c.wfB = true) :
    ∀ i n, c.get i = some n →
      arityShapeB n = true ∧ childLtB i n.lhs = true ∧ childLtB i n.rhs = true ∧
      n.rank = max (childRank c n.lhs) (childRank c n.rhs) ∧ internedB c i n = true := by
  intro i n hget
  have hi := index_lt_of_get hget
  have hrun := (List.all_eq_true.mp h) i (List.mem_range.mpr hi)
  rw [hget] at hrun
  simp only [nodeOkB, Bool.and_eq_true, decide_eq_true_eq] at hrun
  exact ⟨hrun.1.1.1.1, hrun.1.1.1.2, hrun.1.1.2, hrun.1.2, hrun.2⟩

lemma wf_child_lt {c : Cache} (h : c.wfB = true) {i j : Nat} (hc : childOf c i j) :
    j < i ∧ j < c.nodes.length ∧ i < c.nodes.length := by
  obtain ⟨n, hget, hchild⟩ := hc
  have hi := index_lt_of_get hget
  obtain ⟨_, h2, h3, _, _⟩ := wf_spec h i n hget
  have hji : j < i := by
    rcases hchild with hc1 | hc1
    · rw [hc1] at h2; simpa [childLtB] using h2
    · rw [hc1] at h3; simpa [childLtB] using h3
  exact ⟨hji, Nat.lt_trans hji hi, hi⟩

lemma wf_child_rank {c : Cache} (h : c.wfB = true) {i j : Nat} (hc : childOf c i j) :
    rankOf c j < rankOf c i := by
  obtain ⟨n, hget, hchild⟩ := hc
  obtain ⟨hji, hjlen, _⟩ := wf_child_lt h ⟨n, hget, hchild⟩
  obtain ⟨_, _, _, h4, _⟩ := wf_spec h i n hget
  obtain ⟨m, hm⟩ := get_of_lt hjlen
  have hcr : childRank c (some j) = m.rank + 1 := by simp [childRank, hm]
  have hri : rankOf c i = n.rank := by simp [rankOf, hget]
  have hrj : rankOf c j = m.rank := by simp [rankOf, hm]
  rw [hri, hrj, h4]
  rcases hchild with hc1 | hc1
  · have hle := Nat.le_max_left (childRank c n.lhs) (childRank c n.rhs)
    have heq : childRank c n.lhs = m.rank + 1 := by rw [hc1]; exact hcr
    omega
  · have hle := Nat.le_max_right (childRank c n.lhs) (childRank c n.rhs)
    have heq : childRank c n.rhs = m.rank + 1 := by rw [hc1]; exact hcr
    omega

lemma unfoundCount_nil (c : Cache) : unfoundCount c [] = c.nodes.length := by
  simp [unfoundCount]

lemma disc_spec {c : Cache} {r : Nat} (hwf : c.wfB = true) (hr : r < c.nodes.length) :
    (∀ i, i ∈ Tree.disc c (some r) ↔ Reaches c r i)
    ∧ (Tree.disc c (some r)).Nodup := by
  have hcv : ∀ i j, childOf c i j → j < c.nodes.length :=
    fun i j hc => (wf_child_lt hwf hc).2.1
  have hfuel : ([some r] : List (Option Nat)).length + 2 * unfoundCount c [] ≤ bfsFuel c := by
    rw [unfoundCount_nil]
    simp only [List.length_cons, List.length_nil, bfsFuel]
    omega
  have hcl : ∀ i ∈ ([] : List Nat), ∀ j, childOf c i j →
      (some j) ∈ ([some r] : List (Option Nat)) ∨ j ∈ ([] : List Nat) :=
    fun i hi => absurd hi (List.not_mem_nil _)
  obtain ⟨k1, k2⟩ := bfs_complete c hcv (bfsFuel c) [some r] [] hfuel hcl
  constructor
  · intro i
    rw [Tree.disc, List.mem_reverse]
    constructor
    · intro hi
      refine bfs_sound c (Reaches c r) ?_ (bfsFuel c) [some r] [] ?_ ?_ i hi
      · intro a b ha hab
        exact Relation.ReflTransGen.tail ha hab
      · intro h hh j hj
        have : h = some r := by simpa using hh
        rw [this] at hj
        have : r = j := Option.some.inj hj
        rw [← this]
        exact Relation.ReflTransGen.refl
      · intro i' hi'
        exact absurd hi' (List.not_mem_nil _)
    · intro hre
      induction hre with
      | refl => exact k1 (some r) (List.mem_cons_self _ _) r rfl hr
      | tail _ hbc ih => exact k2 _ ih _ hbc
  · rw [Tree.disc]
    exact List.nodup_reverse.mpr (bfs_nodup c (bfsFuel c) [some r] [] List.nodup_nil)

lemma disc_valid {c : Cache} {r : Nat} (hwf : c.wfB = true) (hr : r < c.nodes.length) :
    ∀ i ∈ Tree.disc c (some r), i < c.nodes.length := by
  intro i hi
  rw [Tree.disc, List.mem_reverse] at hi
  refine bfs_sound c (fun k => k < c.nodes.length) ?_ (bfsFuel c) [some r] [] ?_ ?_ i hi
  · intro a b _ hab
    exact (wf_child_lt hwf hab).2.1
  · intro h hh j hj
    have : h = some r := by simpa using hh
    rw [this] at hj
    have : r = j := Option.some.inj hj
    omega
  · intro i' hi'
    exact absurd hi' (List.not_mem_nil _)

lemma rank_le_maxRankOf (c : Cache) (d : List Nat) :
    ∀ i ∈ d, rankOf c i ≤ maxRankOf c d := by
  induction d with
  | nil => intro i hi; exact absurd hi (List.not_mem_nil _)
  | cons a t ih =>
    intro i hi
    rcases List.mem_cons.mp hi with h | h
    · subst h
      exact Nat.le_max_left _ _ |>.trans (Nat.le_refl _)
    · exact (ih i h).trans (Nat.le_max_right _ _)

lemma mem_rankGroups {c : Cache} {d : List Nat} :
    ∀ i, i ∈ rankGroups c d ↔ i ∈ d := by
  intro i
  rw [rankGroups, List.mem_flatMap]
  constructor
  · rintro ⟨r, _, hf⟩
    exact (List.mem_filter.mp hf).1
  · intro hi
    refine ⟨rankOf c i, ?_, ?_⟩
    · exact List.mem_range.mpr (Nat.lt_succ_of_le (rank_le_maxRankOf c d i hi))
    · exact List.mem_filter.mpr ⟨hi, by simp⟩

lemma nodup_rankGroups {c : Cache} {d : List Nat} (hd : d.Nodup) :
    (rankGroups c d).Nodup := by
  rw [rankGroups, List.nodup_flatMap]
  constructor
  · intro r _
    exact hd.filter _
  · refine (List.pairwise_lt_range _).imp ?_
    intro r r' hrr
    intro x hx hx'
    have h1 := (List.mem_filter.mp hx).2
    have h2 := (List.mem_filter.mp hx').2
    simp only [decide_eq_true_eq] at h1 h2
    omega

lemma pairwise_rank_rankGroups {c : Cache} {d : List Nat} :
    (rankGroups c d).Pairwise (fun i j => rankOf c i ≤ rankOf c j) := by
  rw [rankGroups, List.pairwise_flatMap]
  constructor
  · intro r _
    rw [List.pairwise_iff_getElem]
    intro a b ha hb _
    have h1 := (List.mem_filter.mp (List.getElem_mem ha)).2
    have h2 := (List.mem_filter.mp (List.getElem_mem hb)).2
    simp only [decide_eq_true_eq] at h1 h2
    omega
  · refine (List.pairwise_lt_range _).imp ?_
    intro r r' hrr x hx y hy
    have h1 := (List.mem_filter.mp hx).2
    have h2 := (List.mem_filter.mp hy).2
    simp only [decide_eq_true_eq] at h1 h2
    omega

lemma flatMap_range_filter_rank (c : Cache) (d : List Nat) (r₀ : Nat) :
    ∀ n : Nat,
      (List.range n).flatMap
        (fun r => d.filter (fun i => decide (rankOf c i = r₀) && decide (rankOf c i = r)))
      = if r₀ < n then d.filter (fun i => decide (rankOf c i = r₀)) else [] := by
  intro n
  induction n with
  | zero => simp
  | succ n ih =>
    rw [List.range_succ, List.flatMap_append, ih]
    by_cases h : r₀ < n
    · have hne : ¬ r₀ = n := by omega
      have hnil : d.filter (fun i => decide (rankOf c i = r₀) && decide (rankOf c i = n))
          = [] := by
        apply List.filter_eq_nil_iff.mpr
        intro a _
        simp only [Bool.and_eq_true, decide_eq_true_eq]
        rintro ⟨e1, e2⟩
        omega
      rw [if_pos h, if_pos (show r₀ < n + 1 by omega)]
      simp [hnil]
    · by_cases he : r₀ = n
      · subst he
        have heq : d.filter (fun i => decide (rankOf c i = r₀) && decide (rankOf c i = r₀))
            = d.filter (fun i => decide (rankOf c i = r₀)) := by
          apply List.filter_congr
          intro a _
          rw [Bool.and_self]
        rw [if_neg h, if_pos (by omega)]
        simp [heq]
      · have hnil : d.filter (fun i => decide (rankOf c i = r₀) && decide (rankOf c i = n))
            = [] := by
          apply List.filter_eq_nil_iff.mpr
          intro a _
          simp only [Bool.and_eq_true, decide_eq_true_eq]
          rintro ⟨e1, e2⟩
          omega
        rw [if_neg h, if_neg (show ¬ r₀ < n + 1 by omega)]
        simp [hnil]

lemma rankGroups_filter (c : Cache) (d : List Nat) (r₀ : Nat) :
    (rankGroups c d).filter (fun i => decide (rankOf c i = r₀))
      = d.filter (fun i => decide (rankOf c i = r₀)) := by
  rw [rankGroups, List.filter_flatMap]
  have heq : ∀ r ∈ List.range (maxRankOf c d + 1),
      (d.filter (fun i => decide (rankOf c i = r))).filter
          (fun i => decide (rankOf c i = r₀))
      = d.filter (fun i => decide (rankOf c i = r₀) && decide (rankOf c i = r)) := by
    intro r _
    rw [List.filter_filter]
  rw [List.flatMap_congr heq, flatMap_range_filter_rank c d r₀ (maxRankOf c d + 1)]
  by_cases h : r₀ < maxRankOf c d + 1
  · rw [if_pos h]
  · rw [if_neg h]
    symm
    apply List.filter_eq_nil_iff.mpr
    intro a ha
    simp only [decide_eq_true_eq]
    intro he
    have := rank_le_maxRankOf c d a ha
    omega

/-- Position of the first occurrence of `x` (the dense id `serialize`
assigns, and the position used to state order facts). -/
def idxOf (x : Nat) : List Nat → Nat
  | [] => 0
  | y :: l => if y = x then 0 else idxOf x l + 1

lemma idxOf_cons_self (x : Nat) (l : List Nat) : idxOf x (x :: l) = 0 := by
  simp [idxOf]

lemma idxOf_lt_length {x : Nat} : ∀ {l : List Nat}, x ∈ l → idxOf x l < l.length := by
  intro l
  induction l with
  | nil => intro h; exact absurd h (List.not_mem_nil _)
  | cons y t ih =>
    intro h
    by_cases hyx : y = x
    · simp [idxOf, hyx]
    · rcases List.mem_cons.mp h with h0 | h0
      · exact absurd h0.symm hyx
      · simpa [idxOf, hyx] using ih h0

lemma getElem?_idxOf {x : Nat} : ∀ {l : List Nat}, x ∈ l → l[idxOf x l]? = some x := by
  intro l
  induction l with
  | nil => intro h; exact absurd h (List.not_mem_nil _)
  | cons y t ih =>
    intro h
    by_cases hyx : y = x
    · simp [idxOf, hyx]
    · rcases List.mem_cons.mp h with h0 | h0
      · exact absurd h0.symm hyx
      · simpa [idxOf, hyx] using ih h0

lemma idxOf_append_left {x : Nat} : ∀ {l1 l2 : List Nat}, x ∈ l1 →
    idxOf x (l1 ++ l2) = idxOf x l1 := by
  intro l1 l2
  induction l1 with
  | nil => intro h; exact absurd h (List.not_mem_nil _)
  | cons y t ih =>
    intro h
    by_cases hyx : y = x
    · simp [idxOf, hyx]
    · rcases List.mem_cons.mp h with h0 | h0
      · exact absurd h0.symm hyx
      · simp [idxOf, hyx, ih h0]

lemma idxOf_append_right {x : Nat} : ∀ {l1 l2 : List Nat}, x ∉ l1 →
    idxOf x (l1 ++ l2) = l1.length + idxOf x l2 := by
  intro l1 l2
  induction l1 with
  | nil => intro _; simp
  | cons y t ih =>
    intro h
    have hyx : ¬ y = x := fun he => h (he ▸ List.mem_cons_self _ _)
    have hxt : x ∉ t := fun hm => h (List.mem_cons_of_mem _ hm)
    simp [idxOf, hyx, ih hxt]
    omega

lemma idxOf_lt_of_rank_lt {c : Cache} {l : List Nat}
    (hp : l.Pairwise (fun i j => rankOf c i ≤ rankOf c j))
    {x y : Nat} (hx : x ∈ l) (hy : y ∈ l) (hr : rankOf c y < rankOf c x) :
    idxOf y l < idxOf x l := by
  by_contra hle
  push_neg at hle
  have hxl := idxOf_lt_length hx
  have hyl := idxOf_lt_length hy
  obtain ⟨bx, hbx⟩ := List.getElem?_eq_some_iff.mp (getElem?_idxOf hx)
  obtain ⟨by', hby⟩ := List.getElem?_eq_some_iff.mp (getElem?_idxOf hy)
  rcases Nat.lt_or_ge (idxOf x l) (idxOf y l) with hlt | hge
  · have := List.pairwise_iff_getElem.mp hp (idxOf x l) (idxOf y l) hxl hyl hlt
    rw [hbx, hby] at this
    omega
  · have heq : idxOf x l = idxOf y l := by omega
    have h1 := getElem?_idxOf hx
    rw [heq] at h1
    have h2 := getElem?_idxOf hy
    rw [h1] at h2
    have hxy : x = y := Option.some.inj h2
    rw [hxy] at hr
    omega

lemma ordered_spec {c : Cache} {r : Nat} (hwf : c.wfB = true) (hr : r < c.nodes.length) :
    (∀ i, i ∈ Tree.ordered c (some r) ↔ Reaches c r i)
    ∧ (Tree.ordered c (some r)).Nodup
    ∧ (Tree.ordered c (some r)).Pairwise (fun i j => rankOf c i ≤ rankOf c j)
    ∧ (∀ r₀, (Tree.ordered c (some r)).filter (fun i => decide (rankOf c i = r₀))
        = (Tree.disc c (some r)).filter (fun i => decide (rankOf c i = r₀)))
    ∧ (∀ i j, i ∈ Tree.ordered c (some r) → childOf c i j →
        j ∈ Tree.ordered c (some r)
        ∧ idxOf j (Tree.ordered c (some r)) < idxOf i (Tree.ordered c (some r))) := by
  obtain ⟨hmem, hnd⟩ := disc_spec hwf hr
  have hmem' : ∀ i, i ∈ Tree.ordered c (some r) ↔ Reaches c r i := by
    intro i
    rw [Tree.ordered, mem_rankGroups]
    exact hmem i
  have hp : (Tree.ordered c (some r)).Pairwise (fun i j => rankOf c i ≤ rankOf c j) := by
    rw [Tree.ordered]
    exact pairwise_rank_rankGroups
  refine ⟨hmem', ?_, hp, ?_, ?_⟩
  · rw [Tree.ordered]
    exact nodup_rankGroups hnd
  · intro r₀
    rw [Tree.ordered]
    exact rankGroups_filter c _ r₀
  · intro i j hi hcj
    have hri : Reaches c r i := (hmem' i).mp hi
    have hrj : Reaches c r j := Relation.ReflTransGen.tail hri hcj
    have hj : j ∈ Tree.ordered c (some r) := (hmem' j).mpr hrj
    exact ⟨hj, idxOf_lt_of_rank_lt hp hi hj (wf_child_rank hwf hcj)⟩

/-- Claim C3: for a non-empty root handle (pointing at a live node of a
well-formed cache), `ordered()` lists exactly the nodes reachable from the
root — root included — each exactly once (completeness, soundness, no
duplicates); the output is sorted by ascending rank, with ties broken by
the first-discovery order of the breadth-first traversal (`Tree.disc`,
which enqueues lhs before rhs and skips empty operands): within each rank
the output is literally the discovery list filtered to that rank; and no
node ever appears before one of its children. -/
theorem claim_C3 (c : Cache) (r : Nat) (hwf : c.wfB = true) (hr : r < c.nodes.length) :
    (∀ i, i ∈ Tree.ordered c (some r) ↔ Reaches c r i)
    ∧ (Tree.ordered c (some r)).Nodup
    ∧ (Tree.ordered c (some r)).Pairwise (fun i j => rankOf c i ≤ rankOf c j)
    ∧ (∀ r₀, (Tree.ordered c (some r)).filter (fun i => decide (rankOf c i = r₀))
        = (Tree.disc c (some r)).filter (fun i => decide (rankOf c i = r₀)))
    ∧ (∀ i j, i ∈ Tree.ordered c (some r) → childOf c i j →
        idxOf j (Tree.ordered c (some r)) < idxOf i (Tree.ordered c (some r))) := by
  obtain ⟨h1, h2, h3, h4, h5⟩ := ordered_spec hwf hr
  exact ⟨h1, h2, h3, h4, fun i j hi hc => (h5 i j hi hc).2⟩

/-- Witness for C3: in the cache of `add(X, constant(1))` the child
`constant(1)` (index 3) is listed strictly before its parent (index 4). -/
theorem claim_C3_witness :
    idxOf 3 (Tree.ordered c2cache (some 4)) < idxOf 4 (Tree.ordered c2cache (some 4)) :=
  (claim_C3 c2cache 4 (by decide) (by decide)).2.2.2.2 4 3 (by decide)
    ⟨⟨.ADD, Val.zero, some Xid, some 3, 1⟩, by decide, Or.inr rfl⟩

/-! ### C4: the serializer's record layout -/

/-- Spec-side description of one node record, following claim C4's words
(this is the refinement target, deliberately written from the claim rather
than the code): the node's id is its position in the `ordered()`
enumeration — ids are therefore dense from 0 in visitation order — and for
arity-2 opcodes the rhs child's id is written before the lhs child's id,
for arity-1 only the lhs id, for arity-0 nothing. -/
def specRecord (c : Cache) (t : Template) (ord : List Nat) (i : Nat) : List Nat :=
  match c.get i with
  | none => []
  | some n =>
    Opcode.toByte n.op ::
    ((if n.op = .CONST then bytesLE 8 n.value.bits
      else if n.op = .VAR then
        serializeString ((alookup i t.var_names).getD "") ++
        serializeString ((alookup i t.var_docs).getD "")
      else []) ++
     (match Opcode.args n.op, n.rhs, n.lhs with
      | 2, some jr, some jl => bytesLE 4 (idxOf jr ord) ++ bytesLE 4 (idxOf jl ord)
      | 1, _, some jl => bytesLE 4 (idxOf jl ord)
      | _, _, _ => []))

lemma serialize_fold (c : Cache) (t : Template) (ord : List Nat)
    (hvalid : ∀ i ∈ ord, i < c.nodes.length)
    (hshape : ∀ i n, c.get i = some n → arityShapeB n = true)
    (hchild : ∀ i j, i ∈ ord → childOf c i j → j ∈ ord ∧ idxOf j ord < idxOf i ord)
    (hnd : ord.Nodup) :
    ∀ (suf pre : List Nat) (ids : List (Nat × Nat)) (acc : List Nat),
      ord = pre ++ suf →
      ids.length = pre.length →
      (∀ j, alookup j ids = if j ∈ pre then some (idxOf j ord) else none) →
      ∃ ids', suf.foldlM (serStep c t) (ids, acc)
        = some (ids', acc ++ suf.flatMap (specRecord c t ord)) := by
  intro suf
  induction suf with
  | nil =>
    intro pre ids acc _ _ _
    exact ⟨ids, by simp⟩
  | cons i suf' ih =>
    intro pre ids acc hsplit hlen hinv
    have hiord : i ∈ ord := by
      rw [hsplit]
      exact List.mem_append.mpr (Or.inr (List.mem_cons_self _ _))
    have hilen := hvalid i hiord
    obtain ⟨n, hn⟩ := get_of_lt hilen
    have hi_pre : i ∉ pre := by
      intro hip
      rw [hsplit] at hnd
      have := (List.nodup_append.mp hnd).2.2
      exact this hip (List.mem_cons_self _ _)
    have hidx : idxOf i ord = pre.length := by
      rw [hsplit, idxOf_append_right hi_pre, idxOf_cons_self]
      omega
    have hchild_look : ∀ jl, childOf c i jl →
        jl ∈ pre ∧ alookup jl ((i, ids.length) :: ids) = some (idxOf jl ord) := by
      intro jl hcj
      obtain ⟨hjord, hjidx⟩ := hchild i jl hiord hcj
      rw [hidx] at hjidx
      have hjl_pre : jl ∈ pre := by
        by_contra hnp
        have he := @idxOf_append_right jl pre (i :: suf') hnp
        rw [← hsplit] at he
        omega
      have hne : ¬ jl = i := fun he => hi_pre (he ▸ hjl_pre)
      refine ⟨hjl_pre, ?_⟩
      rw [alookup, if_neg hne, hinv jl, if_pos hjl_pre]
    have hstep : serStep c t (ids, acc) i
        = some ((i, ids.length) :: ids, acc ++ specRecord c t ord i) := by
      have hsh := hshape i n hn
      rcases hargs : Opcode.args n.op with _ | k
      · -- arity 0: no children written
        have hlr : n.lhs = none ∧ n.rhs = none := by
          cases hl : n.lhs <;> cases hr : n.rhs <;>
            simp [arityShapeB, hargs, hl, hr] at hsh ⊢
        simp only [serStep, hn, specRecord, hargs, hlr.1, hlr.2]
        simp [List.append_assoc]
      · rcases k with _ | k
        · -- arity 1: lhs only
          have hargs1a : Opcode.args n.op = 1 := by omega
          obtain ⟨jl, hl, hr⟩ : ∃ jl, n.lhs = some jl ∧ n.rhs = none := by
            cases hl : n.lhs with
            | none => cases hr : n.rhs <;> simp [arityShapeB, hargs1a, hl, hr] at hsh
            | some jl =>
              cases hr : n.rhs with
              | none => exact ⟨jl, rfl, rfl⟩
              | some jr => simp [arityShapeB, hargs1a, hl, hr] at hsh
          have hlook := (hchild_look jl ⟨n, hn, Or.inl hl⟩).2
          have hargs1 : Opcode.args n.op = 1 := by omega
          simp only [serStep, hn, specRecord, hargs1, hl, hr, hlook]
          simp [List.append_assoc]
        · rcases k with _ | k
          · -- arity 2: rhs id then lhs id
            have hargs2a : Opcode.args n.op = 2 := by omega
            obtain ⟨jl, jr, hl, hr⟩ : ∃ jl jr, n.lhs = some jl ∧ n.rhs = some jr := by
              cases hl : n.lhs with
              | none => cases hr : n.rhs <;> simp [arityShapeB, hargs2a, hl, hr] at hsh
              | some jl =>
                cases hr : n.rhs with
                | none => simp [arityShapeB, hargs2a, hl, hr] at hsh
                | some jr => exact ⟨jl, jr, rfl, rfl⟩
            have hlookl := (hchild_look jl ⟨n, hn, Or.inl hl⟩).2
            have hlookr := (hchild_look jr ⟨n, hn, Or.inr hr⟩).2
            have hargs2 : Opcode.args n.op = 2 := by omega
            simp only [serStep, hn, specRecord, hargs2, hl, hr, hlookl, hlookr]
            simp [List.append_assoc]
          · -- arity ≥ 3 is impossible
            exfalso
            cases hl : n.lhs <;> cases hr : n.rhs <;>
              simp [arityShapeB, hargs, hl, hr] at hsh
    rw [List.foldlM_cons, hstep]
    have hsplit' : ord = (pre ++ [i]) ++ suf' := by
      rw [hsplit]
      simp
    have hlen' : ((i, ids.length) :: ids).length = (pre ++ [i]).length := by
      simp [hlen]
    have hinv' : ∀ j, alookup j ((i, ids.length) :: ids)
        = if j ∈ pre ++ [i] then some (idxOf j ord) else none := by
      intro j
      by_cases hji : j = i
      · subst hji
        rw [alookup, if_pos rfl, hlen, hidx]
        rw [if_pos (List.mem_append.mpr (Or.inr (List.mem_cons_self _ _)))]
      · rw [alookup, if_neg hji, hinv j]
        have hmemiff : (j ∈ pre ++ [i]) ↔ (j ∈ pre) := by
          constructor
          · intro hm
            rcases List.mem_append.mp hm with hm | hm
            · exact hm
            · exact absurd (by simpa using hm) hji
          · intro hm
            exact List.mem_append.mpr (Or.inl hm)
        by_cases hjp : j ∈ pre
        · rw [if_pos hjp, if_pos (hmemiff.mpr hjp)]
        · rw [if_neg hjp, if_neg (fun hm => hjp (hmemiff.mp hm))]
    obtain ⟨ids', hrec⟩ := ih (pre ++ [i]) ((i, ids.length) :: ids)
      (acc ++ specRecord c t ord i) hsplit' hlen' hinv'
    refine ⟨ids', ?_⟩
    simp only [Option.bind_eq_bind, Option.some_bind]
    rw [hrec, List.flatMap_cons, ← List.append_assoc]

/-- Claim C4: `serialize(template)` succeeds on a well-formed cache and
live root and produces exactly the header followed by one record per node
of `ordered()`, where ids are assigned densely from 0 in visitation order
(each node's id is its position in the enumeration, as `specRecord`
spells out), arity-2 records carry the rhs child's id before the lhs
child's id, arity-1 records only the lhs id, arity-0 records no id; and
every child id written is strictly lower than the id of the node
referencing it. -/
theorem claim_C4 (c : Cache) (t : Template) (r : Nat)
    (hwf : c.wfB = true) (hroot : t.tree = some r) (hr : r < c.nodes.length) :
    Tree.serializeT c t
      = some ((84 :: (serializeString t.name ++ serializeString t.doc))
          ++ (Tree.ordered c t.tree).flatMap (specRecord c t (Tree.ordered c t.tree)))
    ∧ (∀ i j, i ∈ Tree.ordered c t.tree → childOf c i j →
        idxOf j (Tree.ordered c t.tree) < idxOf i (Tree.ordered c t.tree)) := by
  obtain ⟨hmem, hnd, hsort, hfil, hcp⟩ := ordered_spec hwf hr
  have hvalid : ∀ i ∈ Tree.ordered c (some r), i < c.nodes.length := by
    intro i hi
    rw [Tree.ordered, mem_rankGroups] at hi
    exact disc_valid hwf hr i hi
  obtain ⟨ids', hfold⟩ := serialize_fold c t (Tree.ordered c (some r)) hvalid
    (fun i n h => (wf_spec hwf i n h).1) hcp hnd
    (Tree.ordered c (some r)) [] []
    (84 :: (serializeString t.name ++ serializeString t.doc))
    (by simp) (by simp) (by intro j; simp [alookup])
  constructor
  · rw [Tree.serializeT, hroot, hfold]
  · rw [hroot]
    exact fun i j hi hc => (hcp i j hi hc).2

/-- Witness for C4: the concrete serialization of `add(X, constant(1))`
matches the spec-side record layout. -/
theorem claim_C4_witness :
    Tree.serializeT c2cache ⟨some 4, "", "", [], []⟩
      = some ((84 :: (serializeString "" ++ serializeString ""))
          ++ (Tree.ordered c2cache (some 4)).flatMap
              (specRecord c2cache ⟨some 4, "", "", [], []⟩
                (Tree.ordered c2cache (some 4)))) :=
  (claim_C4 c2cache ⟨some 4, "", "", [], []⟩ 4 (by decide) rfl (by decide)).1

/-! ### C6: remap is the identity when X, Y, Z do not occur -/

lemma args_pos_ne_const_var {op : Opcode} (h : 1 ≤ Opcode.args op) :
    ¬ op = Opcode.CONST ∧ ¬ op = Opcode.VAR := by
  cases op <;> simp [Opcode.args] at h ⊢

lemma get_uniq {c : Cache} {j : Nat} {n n' : Node}
    (h : c.get j = some n) (h' : c.get j = some n') : n = n' := by
  rw [h] at h'
  exact Option.some.inj h'

lemma alookup_m0_none (hx_ hy_ hz_ : Option Nat) {j : Nat}
    (h0 : ¬ j = Xid) (h1 : ¬ j = Yid) (h2 : ¬ j = Zid) :
    alookup j [(Xid, hx_), (Yid, hy_), (Zid, hz_)] = none := by
  simp [alookup, h0, h1, h2]

lemma operation_interned {c : Cache} (hwf : c.wfB = true) {i : Nat} {n : Node}
    (hn : c.get i = some n) (hop : 1 ≤ Opcode.args n.op) :
    Cache.operation n.op n.lhs n.rhs c = (i, c) := by
  obtain ⟨hnc, hnv⟩ := args_pos_ne_const_var hop
  have hint := (wf_spec hwf i n hn).2.2.2.2
  rw [internedB, if_neg hnc, if_neg hnv] at hint
  have hlook := of_decide_eq_true hint
  simp [Cache.operation, hlook]


lemma remapPass_fold (c : Cache) (hwf : c.wfB = true) (ord : List Nat)
    (hx_ hy_ hz_ : Option Nat)
    (hval : ∀ i ∈ ord, i < c.nodes.length)
    (hchild : ∀ i j, i ∈ ord → childOf c i j → j ∈ ord ∧ idxOf j ord < idxOf i ord)
    (hnd : ord.Nodup)
    (hnx : Xid ∉ ord) (hny : Yid ∉ ord) (hnz : Zid ∉ ord) :
    ∀ (suf pre : List Nat), ord = pre ++ suf →
      ∀ (m : List (Nat × Option Nat)),
      (∀ j n, j ∈ pre → c.get j = some n → 1 ≤ Opcode.args n.op →
          alookup j m = some (some j)) →
      (∀ j, (¬ ∃ n, j ∈ pre ∧ c.get j = some n ∧ 1 ≤ Opcode.args n.op) →
          alookup j m = alookup j [(Xid, hx_), (Yid, hy_), (Zid, hz_)]) →
      (∀ j n, j ∈ ord → c.get j = some n → 1 ≤ Opcode.args n.op →
          alookup j (suf.foldl remapStep (c, m)).2 = some (some j))
      ∧ (∀ j, (¬ ∃ n, j ∈ ord ∧ c.get j = some n ∧ 1 ≤ Opcode.args n.op) →
          alookup j (suf.foldl remapStep (c, m)).2
            = alookup j [(Xid, hx_), (Yid, hy_), (Zid, hz_)])
      ∧ (suf.foldl remapStep (c, m)).1 = c := by
  intro suf
  induction suf with
  | nil =>
    intro pre hsplit m invA invB
    have hpre : ord = pre := by simpa using hsplit
    subst hpre
    exact ⟨invA, invB, rfl⟩
  | cons i suf' ih =>
    intro pre hsplit m invA invB
    have hiord : i ∈ ord := by
      rw [hsplit]
      exact List.mem_append.mpr (Or.inr (List.mem_cons_self _ _))
    obtain ⟨n, hn⟩ := get_of_lt (hval i hiord)
    have hi_pre : i ∉ pre := by
      intro hip
      have hnd' := hnd
      rw [hsplit] at hnd'
      exact (List.nodup_append.mp hnd').2.2 hip (List.mem_cons_self _ _)
    have hidx : idxOf i ord = pre.length := by
      rw [hsplit, idxOf_append_right hi_pre, idxOf_cons_self]
      omega
    have hchild_pre : ∀ jl, childOf c i jl → jl ∈ pre := by
      intro jl hcj
      obtain ⟨hjord, hjidx⟩ := hchild i jl hiord hcj
      rw [hidx] at hjidx
      by_contra hnp
      have he := @idxOf_append_right jl pre (i :: suf') hnp
      rw [← hsplit] at he
      omega
    have hres : ∀ jl, (n.lhs = some jl ∨ n.rhs = some jl) →
        (alookup jl m).getD (some jl) = some jl := by
      intro jl hj
      have hcj : childOf c i jl := ⟨n, hn, hj⟩
      have hjpre := hchild_pre jl hcj
      have hjord : jl ∈ ord := (hchild i jl hiord hcj).1
      obtain ⟨nl, hnl⟩ := get_of_lt (hval jl hjord)
      by_cases hl1 : 1 ≤ Opcode.args nl.op
      · rw [invA jl nl hjpre hnl hl1]
        rfl
      · have hnone : alookup jl m = alookup jl [(Xid, hx_), (Yid, hy_), (Zid, hz_)] := by
          apply invB
          rintro ⟨n', _, hn', ha'⟩
          exact hl1 ((get_uniq hn' hnl) ▸ ha')
        have h0 : ¬ jl = Xid := fun he => hnx (he ▸ hjord)
        have h1 : ¬ jl = Yid := fun he => hny (he ▸ hjord)
        have h2 : ¬ jl = Zid := fun he => hnz (he ▸ hjord)
        rw [hnone, alookup_m0_none hx_ hy_ hz_ h0 h1 h2]
        rfl
    have hsplit' : ord = (pre ++ [i]) ++ suf' := by
      rw [hsplit]
      simp
    by_cases hop : 1 ≤ Opcode.args n.op
    · have hl : (match n.lhs with
          | some j => (alookup j m).getD n.lhs
          | none => none) = n.lhs := by
        cases hlc : n.lhs with
        | none => rfl
        | some jl => exact hres jl (Or.inl hlc)
      have hr : (match n.rhs with
          | some j => (alookup j m).getD n.rhs
          | none => none) = n.rhs := by
        cases hrc : n.rhs with
        | none => rfl
        | some jr => exact hres jr (Or.inr hrc)
      have hstep : remapStep (c, m) i = (c, (i, some i) :: m) := by
        simp only [remapStep, hn, if_pos hop]
        rw [hl, hr, operation_interned hwf hn hop]
      rw [List.foldl_cons, hstep]
      apply ih (pre ++ [i]) hsplit' ((i, some i) :: m)
      · intro j nj hjp hgetj hargsj
        rcases List.mem_append.mp hjp with hjp | hjp
        · have hne : ¬ j = i := fun he => hi_pre (he ▸ hjp)
          rw [alookup, if_neg hne]
          exact invA j nj hjp hgetj hargsj
        · have hji : j = i := by simpa using hjp
          subst hji
          rw [alookup, if_pos rfl]
      · intro j hnex
        have hji : ¬ j = i := by
          rintro rfl
          exact hnex ⟨n, List.mem_append.mpr (Or.inr (List.mem_cons_self _ _)), hn, hop⟩
        rw [alookup, if_neg hji]
        apply invB
        rintro ⟨n', hjp, hg', ha'⟩
        exact hnex ⟨n', List.mem_append.mpr (Or.inl hjp), hg', ha'⟩
    · have hstep : remapStep (c, m) i = (c, m) := by
        simp only [remapStep, hn, if_neg hop]
      rw [List.foldl_cons, hstep]
      apply ih (pre ++ [i]) hsplit' m
      · intro j nj hjp hgetj hargsj
        rcases List.mem_append.mp hjp with hjp | hjp
        · exact invA j nj hjp hgetj hargsj
        · have hji : j = i := by simpa using hjp
          subst hji
          exact absurd ((get_uniq hgetj hn) ▸ hargsj) hop
      · intro j hnex
        apply invB
        rintro ⟨n', hjp, hg', ha'⟩
        exact hnex ⟨n', List.mem_append.mpr (Or.inl hjp), hg', ha'⟩

/-- Claim C6: for every tree (live root in a well-formed cache) in which
none of the three canonical free variables X, Y, Z occurs — occurrence
being membership in the node enumeration `ordered()` — `remap(X', Y', Z')`
returns the identical handle and leaves the cache untouched, for arbitrary
replacement subtrees X', Y', Z'. -/
theorem claim_C6 (c : Cache) (r : Nat) (hx_ hy_ hz_ : Option Nat)
    (hwf : c.wfB = true) (hr : r < c.nodes.length)
    (hnx : Xid ∉ Tree.ordered c (some r))
    (hny : Yid ∉ Tree.ordered c (some r))
    (hnz : Zid ∉ Tree.ordered c (some r)) :
    Tree.remap c (some r) hx_ hy_ hz_ = (c, some r) := by
  obtain ⟨hmem, hnd, _, _, hcp⟩ := ordered_spec hwf hr
  have hval : ∀ i ∈ Tree.ordered c (some r), i < c.nodes.length := by
    intro i hi
    rw [Tree.ordered, mem_rankGroups] at hi
    exact disc_valid hwf hr i hi
  obtain ⟨kA, kB, kC⟩ := remapPass_fold c hwf (Tree.ordered c (some r)) hx_ hy_ hz_
    hval hcp hnd hnx hny hnz (Tree.ordered c (some r)) [] (by simp)
    [(Xid, hx_), (Yid, hy_), (Zid, hz_)]
    (fun j n hj _ _ => absurd hj (List.not_mem_nil _))
    (fun j _ => rfl)
  have hrord : r ∈ Tree.ordered c (some r) := (hmem r).mpr Relation.ReflTransGen.refl
  obtain ⟨nr, hnr⟩ := get_of_lt hr
  have hst : remapPass (Tree.ordered c (some r)) c [(Xid, hx_), (Yid, hy_), (Zid, hz_)]
      = ((Tree.ordered c (some r)).foldl remapStep
          (c, [(Xid, hx_), (Yid, hy_), (Zid, hz_)])) := rfl
  by_cases hop : 1 ≤ Opcode.args nr.op
  · have hlook := kA r nr hrord hnr hop
    simp only [Tree.remap, hst, hlook, kC]
  · have hnex : ¬ ∃ n, r ∈ Tree.ordered c (some r) ∧ c.get r = some n
        ∧ 1 ≤ Opcode.args n.op := by
      rintro ⟨n', _, hg', ha'⟩
      exact hop ((get_uniq hg' hnr) ▸ ha')
    have h0 : ¬ r = Xid := fun he => hnx (he ▸ hrord)
    have h1 : ¬ r = Yid := fun he => hny (he ▸ hrord)
    have h2 : ¬ r = Zid := fun he => hnz (he ▸ hrord)
    have hlook := kB r hnex
    rw [alookup_m0_none hx_ hy_ hz_ h0 h1 h2] at hlook
    simp only [Tree.remap, hst, hlook, kC]

/-- Witness for C6: `add(constant(1), constant(2))` contains none of X, Y,
Z, so a concrete remap with arbitrary replacements returns it unchanged. -/
theorem claim_C6_witness :
    Tree.remap c9add.2 (some 5) (some 3) none (some Xid) = (c9add.2, some 5) :=
  claim_C6 c9add.2 5 (some 3) none (some Xid)
    (by decide) (by decide) (by decide) (by decide) (by decide)
